import Mathlib

/-!
Verification of the mdvim-monaco preview pipeline (src/main.ts) against its
natural-language specification.

The TypeScript source is shallowly embedded below.  Strings are modelled as
`List Char` (wrapped in `String` at the interfaces), the JS regex-replace
passes are modelled as recursive character scanners that reproduce the
behaviour of the specific regular expressions appearing in the source
(leftmost match, lazy/greedy interiors as written, advance-by-one retry on a
failed match attempt), and external collaborators (the KaTeX renderer, the
markdown parser used to re-render callout/footnote bodies) are passed in as
function parameters, mirroring §6 of the specification.

Scanners take an explicit fuel argument so that all recursion is structural;
every scanner step consumes at least one character, so fuel equal to the
input length always suffices, and the top-level wrappers pass exactly that.
-/

namespace Mdvim

/-- `/^\d/.test s` on the first character of a candidate. -/
def isDigitCh (c : Char) : Bool := decide ('0' ≤ c) && decide (c ≤ '9')

/-- Placeholder emitted for the `n`-th block math expression
(`<!--MATH_BLOCK_${index}-->` in `processMath`). -/
def mathBlockPh (n : Nat) : String := "<!--MATH_BLOCK_" ++ toString n ++ "-->"

/-- Placeholder emitted for the `n`-th inline math expression
(`<!--MATH_INLINE_${index}-->` in `processMath`). -/
def mathInlinePh (n : Nat) : String := "<!--MATH_INLINE_" ++ toString n ++ "-->"

/-- Scanning helper for the block-math alternative `\$\$([\s\S]*?)\$\$`:
given the characters after an opening `$$`, return the (lazy) interior up to
the first later `$$` together with the rest, or `none` when no closing `$$`
exists. -/
def splitBlockDollar : List Char → Option (List Char × List Char)
  | '$' :: '$' :: r => some ([], r)
  | [] => none
  | c :: r => (splitBlockDollar r).map (fun p => (c :: p.1, p.2))

/-- Scanning helper for the block-math alternative `\\\[([\s\S]*?)\\\])`:
interior up to the first `\]`. -/
def splitBracketClose : List Char → Option (List Char × List Char)
  | '\\' :: ']' :: r => some ([], r)
  | [] => none
  | c :: r => (splitBracketClose r).map (fun p => (c :: p.1, p.2))

/-- Scanning helper for the inline-math alternative `\$([^\$\n]+?)\$`:
given the characters after an opening `$`, return the interior up to the
first later `$`, failing when a newline (or the end of input) intervenes —
the character class `[^\$\n]` excludes both. -/
def splitDollar : List Char → Option (List Char × List Char)
  | [] => none
  | c :: r =>
    if c = '$' then some ([], r)
    else if c = '\n' then none
    else (splitDollar r).map (fun p => (c :: p.1, p.2))

/-- Scanning helper for the inline-math alternative `\\\(([^)]+?)\\\)`:
interior up to the first `\)`; a bare `)` makes the attempt fail because the
interior class `[^)]` cannot contain it. -/
def splitParenClose : List Char → Option (List Char × List Char)
  | '\\' :: ')' :: r => some ([], r)
  | ')' :: _ => none
  | [] => none
  | c :: r => (splitParenClose r).map (fun p => (c :: p.1, p.2))

/-- The block-math pass of `processMath`: the global replace over
`/\$\$([\s\S]*?)\$\$|\\\[([\s\S]*?)\\\]/g`.  `katex` stands for
`katex.renderToString(tex, { displayMode, throwOnError: false })`, which is
total, so the surrounding `try`/`catch` in the source is unreachable except
in the empty-`$$`-interior case, where `tex1 || tex2` evaluates to JS
`undefined` and `tex.trim()` throws, producing the `math-error` div with the
text `undefined`.  `n` is the running index into the shared `mathBlocks`
array. -/
def blockMathScan (katex : String → Bool → String) :
    Nat → Nat → List Char → List Char × List String
  | 0, _, l => (l, [])
  | _ + 1, _, [] => ([], [])
  | fuel + 1, n, c :: rest =>
    if c = '$' then
      match rest with
      | d :: rest2 =>
        if d = '$' then
          match splitBlockDollar rest2 with
          | some (t, rest') =>
            let entry :=
              if t = [] then "<div class=\"math-block math-error\">undefined</div>"
              else "<div class=\"math-block\">" ++ katex (String.mk t).trim true ++ "</div>"
            let res := blockMathScan katex fuel (n + 1) rest'
            ((mathBlockPh n).data ++ res.1, entry :: res.2)
          | none =>
            let res := blockMathScan katex fuel n (d :: rest2)
            ('$' :: res.1, res.2)
        else
          let res := blockMathScan katex fuel n (d :: rest2)
          ('$' :: res.1, res.2)
      | [] =>
        let res := blockMathScan katex fuel n []
        ('$' :: res.1, res.2)
    else if c = '\\' then
      match rest with
      | d :: rest2 =>
        if d = '[' then
          match splitBracketClose rest2 with
          | some (t, rest') =>
            let entry := "<div class=\"math-block\">" ++ katex (String.mk t).trim true ++ "</div>"
            let res := blockMathScan katex fuel (n + 1) rest'
            ((mathBlockPh n).data ++ res.1, entry :: res.2)
          | none =>
            let res := blockMathScan katex fuel n (d :: rest2)
            ('\\' :: res.1, res.2)
        else
          let res := blockMathScan katex fuel n (d :: rest2)
          ('\\' :: res.1, res.2)
      | [] =>
        let res := blockMathScan katex fuel n []
        ('\\' :: res.1, res.2)
    else
      let res := blockMathScan katex fuel n rest
      (c :: res.1, res.2)

/-- The inline-math pass of `processMath`: the global replace over
`/\$([^\$\n]+?)\$|\\\(([^)]+?)\\\)/g`.  When the candidate interior starts
with a digit the callback returns the match unchanged (the currency guard),
and — exactly as in JS `String.replace` — the engine resumes after the whole
match, so both delimiting dollars are consumed. -/
def inlineMathScan (katex : String → Bool → String) :
    Nat → Nat → List Char → List Char × List String
  | 0, _, l => (l, [])
  | _ + 1, _, [] => ([], [])
  | fuel + 1, n, c :: rest =>
    if c = '$' then
      match splitDollar rest with
      | some (t, rest') =>
        if t = [] then
          -- `[^\$\n]+?` needs at least one character: the attempt fails and
          -- the engine retries from the next character.
          let res := inlineMathScan katex fuel n rest
          ('$' :: res.1, res.2)
        else if isDigitCh (t.headD ' ') then
          let res := inlineMathScan katex fuel n rest'
          ('$' :: (t ++ '$' :: res.1), res.2)
        else
          let entry := "<span class=\"math-inline\">" ++ katex (String.mk t).trim false ++ "</span>"
          let res := inlineMathScan katex fuel (n + 1) rest'
          ((mathInlinePh n).data ++ res.1, entry :: res.2)
      | none =>
        let res := inlineMathScan katex fuel n rest
        ('$' :: res.1, res.2)
    else if c = '\\' then
      match rest with
      | d :: rest2 =>
        if d = '(' then
          match splitParenClose rest2 with
          | some (t, rest') =>
            if t = [] then
              let res := inlineMathScan katex fuel n (d :: rest2)
              ('\\' :: res.1, res.2)
            else
              let entry := "<span class=\"math-inline\">" ++ katex (String.mk t).trim false ++ "</span>"
              let res := inlineMathScan katex fuel (n + 1) rest'
              ((mathInlinePh n).data ++ res.1, entry :: res.2)
          | none =>
            let res := inlineMathScan katex fuel n (d :: rest2)
            ('\\' :: res.1, res.2)
        else
          let res := inlineMathScan katex fuel n (d :: rest2)
          ('\\' :: res.1, res.2)
      | [] =>
        let res := inlineMathScan katex fuel n []
        ('\\' :: res.1, res.2)
    else
      let res := inlineMathScan katex fuel n rest
      (c :: res.1, res.2)

/-- `processMath` of src/main.ts: block math first, then inline math, both
pushing onto one shared `mathBlocks` list whose length seeds the inline
indices; returns the parser-safe text together with the side table that the
source stashes in `this._mathBlocks`. -/
def processMath (katex : String → Bool → String) (content : String) :
    String × List String :=
  let l := content.data
  let b := blockMathScan katex l.length 0 l
  let i := inlineMathScan katex b.1.length b.2.length b.1
  (String.mk i.1, b.2 ++ i.2)

/-- A concrete stand-in for the external KaTeX renderer, used only to state
closed counterexamples; the theorems quantified over `katex` show the
relevant behaviour does not depend on it. -/
def katexStub : String → Bool → String := fun tex _ => "<k>" ++ tex ++ "</k>"

lemma blockMathScan_nil (katex : String → Bool → String) (f n : Nat) :
    blockMathScan katex f n [] = ([], []) := by
  cases f <;> rfl

lemma inlineMathScan_nil (katex : String → Bool → String) (f n : Nat) :
    inlineMathScan katex f n [] = ([], []) := by
  cases f <;> rfl

/-- Characters that trigger neither math alternative. -/
def plainChar (c : Char) : Prop := c ≠ '$' ∧ c ≠ '\\'

instance (c : Char) : Decidable (plainChar c) :=
  inferInstanceAs (Decidable (c ≠ '$' ∧ c ≠ '\\'))

lemma blockMathScan_plain_append (katex : String → Bool → String) :
    ∀ (l : List Char) (f n : Nat) (r : List Char), (∀ c ∈ l, plainChar c) →
      blockMathScan katex (l.length + f) n (l ++ r)
        = (l ++ (blockMathScan katex f n r).1, (blockMathScan katex f n r).2) := by
  intro l
  induction l with
  | nil => intro f n r _; simp
  | cons c l' ih =>
    intro f n r h
    have hc : plainChar c := h c (List.mem_cons_self _ _)
    have hlen : (c :: l').length + f = (l'.length + f) + 1 := by
      simp only [List.length_cons]; omega
    rw [hlen, List.cons_append]
    simp only [blockMathScan, if_neg hc.1, if_neg hc.2]
    rw [ih f n r (fun d hd => h d (List.mem_cons_of_mem _ hd))]
    simp

lemma inlineMathScan_plain_append (katex : String → Bool → String) :
    ∀ (l : List Char) (f n : Nat) (r : List Char), (∀ c ∈ l, plainChar c) →
      inlineMathScan katex (l.length + f) n (l ++ r)
        = (l ++ (inlineMathScan katex f n r).1, (inlineMathScan katex f n r).2) := by
  intro l
  induction l with
  | nil => intro f n r _; simp
  | cons c l' ih =>
    intro f n r h
    have hc : plainChar c := h c (List.mem_cons_self _ _)
    have hlen : (c :: l').length + f = (l'.length + f) + 1 := by
      simp only [List.length_cons]; omega
    rw [hlen, List.cons_append]
    simp only [inlineMathScan, if_neg hc.1, if_neg hc.2]
    rw [ih f n r (fun d hd => h d (List.mem_cons_of_mem _ hd))]
    simp

lemma blockMathScan_plain_all (katex : String → Bool → String) :
    ∀ (l : List Char) (n : Nat), (∀ c ∈ l, plainChar c) →
      blockMathScan katex l.length n l = (l, []) := by
  intro l
  induction l with
  | nil => intro n _; rfl
  | cons c l' ih =>
    intro n h
    have hc : plainChar c := h c (List.mem_cons_self _ _)
    rw [List.length_cons]
    simp only [blockMathScan, if_neg hc.1, if_neg hc.2]
    rw [ih n (fun d hd => h d (List.mem_cons_of_mem _ hd))]

lemma inlineMathScan_plain_all (katex : String → Bool → String) :
    ∀ (l : List Char) (n : Nat), (∀ c ∈ l, plainChar c) →
      inlineMathScan katex l.length n l = (l, []) := by
  intro l
  induction l with
  | nil => intro n _; rfl
  | cons c l' ih =>
    intro n h
    have hc : plainChar c := h c (List.mem_cons_self _ _)
    rw [List.length_cons]
    simp only [inlineMathScan, if_neg hc.1, if_neg hc.2]
    rw [ih n (fun d hd => h d (List.mem_cons_of_mem _ hd))]

lemma splitDollar_none_of_newline :
    ∀ (a r : List Char), '\n' ∈ a → '$' ∉ a → splitDollar (a ++ r) = none := by
  intro a
  induction a with
  | nil => intro r h; simp at h
  | cons c a' ih =>
    intro r hn hd
    simp only [List.mem_cons, not_or] at hd
    have hc : ¬c = '$' := fun h => hd.1 h.symm
    by_cases hcn : c = '\n'
    · subst hcn
      simp [splitDollar, hc]
    · have hn' : '\n' ∈ a' := by
        rcases List.mem_cons.mp hn with h | h
        · exact absurd h.symm hcn
        · exact h
      simp [splitDollar, hc, hcn, ih r hn' hd.2]

lemma splitDollar_none_of_no_dollar :
    ∀ (l : List Char), '$' ∉ l → splitDollar l = none := by
  intro l
  induction l with
  | nil => intro _; rfl
  | cons c l' ih =>
    intro hd
    simp only [List.mem_cons, not_or] at hd
    have hc : ¬c = '$' := fun h => hd.1 h.symm
    by_cases hcn : c = '\n'
    · subst hcn; simp [splitDollar, hc]
    · simp [splitDollar, hc, hcn, ih hd.2]

/-- One scanner step at a `$` whose candidate fails (`splitDollar` is
`none`): the engine emits the dollar and retries from the next character. -/
lemma inlineMathScan_skip_step (katex : String → Bool → String) (f n : Nat)
    (r : List Char) (h : splitDollar r = none) :
    inlineMathScan katex (f + 1) n ('$' :: r)
      = ('$' :: (inlineMathScan katex f n r).1, (inlineMathScan katex f n r).2) := by
  simp only [inlineMathScan, h]
  simp only [eq_self_iff_true, if_true]

/-- One block-scanner step at a `$` not followed by another `$`: no `$$`
alternative can start here, so the dollar is copied. -/
lemma blockMathScan_dollar_step (katex : String → Bool → String) (f n : Nat)
    (d : Char) (r : List Char) (hd : ¬d = '$') :
    blockMathScan katex (f + 1) n ('$' :: d :: r)
      = ('$' :: (blockMathScan katex f n (d :: r)).1,
          (blockMathScan katex f n (d :: r)).2) := by
  simp only [blockMathScan]
  simp only [eq_self_iff_true, if_true, hd, if_false]

/-- The inline-math pass copies `pre ++ "$" ++ a ++ "$" ++ post` verbatim
when `a` contains a newline and no dollar or backslash appears in
`pre`, `a`, `post`: the character class `[^\$\n]` can never bridge the
newline. -/
lemma inlineMathScan_newline_skip (katex : String → Bool → String)
    (pre a post : List Char) (n : Nat)
    (hn : '\n' ∈ a)
    (hpre : ∀ c ∈ pre, plainChar c)
    (ha : ∀ c ∈ a, plainChar c)
    (hpost : ∀ c ∈ post, plainChar c) :
    inlineMathScan katex (pre ++ '$' :: (a ++ '$' :: post)).length n
        (pre ++ '$' :: (a ++ '$' :: post))
      = (pre ++ '$' :: (a ++ '$' :: post), []) := by
  have hda : '$' ∉ a := fun hm => (ha _ hm).1 rfl
  have hdp : '$' ∉ post := fun hm => (hpost _ hm).1 rfl
  have h5 : inlineMathScan katex (post.length + 1) n ('$' :: post)
      = ('$' :: post, []) := by
    rw [inlineMathScan_skip_step katex post.length n post
        (splitDollar_none_of_no_dollar post hdp),
      inlineMathScan_plain_all katex post n hpost]
  have h4 : inlineMathScan katex (a.length + (post.length + 1)) n (a ++ '$' :: post)
      = (a ++ '$' :: post, []) := by
    rw [inlineMathScan_plain_append katex a (post.length + 1) n ('$' :: post) ha, h5]
  have h2 : inlineMathScan katex ((a.length + (post.length + 1)) + 1) n
        ('$' :: (a ++ '$' :: post))
      = ('$' :: (a ++ '$' :: post), []) := by
    rw [inlineMathScan_skip_step katex (a.length + (post.length + 1)) n (a ++ '$' :: post)
        (splitDollar_none_of_newline a ('$' :: post) hn hda),
      h4]
  have hlen : (pre ++ '$' :: (a ++ '$' :: post)).length
      = pre.length + ((a.length + (post.length + 1)) + 1) := by
    simp only [List.length_append, List.length_cons]; try omega
  rw [hlen,
    inlineMathScan_plain_append katex pre ((a.length + (post.length + 1)) + 1) n
      ('$' :: (a ++ '$' :: post)) hpre,
    h2]

/-- The block-math pass copies the same string verbatim: there is no `$$`
(the two dollars are separated by the nonempty `a`) and no `\[`. -/
lemma blockMathScan_newline_skip (katex : String → Bool → String)
    (pre a post : List Char) (n : Nat)
    (hn : '\n' ∈ a)
    (hpre : ∀ c ∈ pre, plainChar c)
    (ha : ∀ c ∈ a, plainChar c)
    (hpost : ∀ c ∈ post, plainChar c) :
    blockMathScan katex (pre ++ '$' :: (a ++ '$' :: post)).length n
        (pre ++ '$' :: (a ++ '$' :: post))
      = (pre ++ '$' :: (a ++ '$' :: post), []) := by
  have h5 : blockMathScan katex (post.length + 1) n ('$' :: post)
      = ('$' :: post, []) := by
    cases post with
    | nil => rfl
    | cons d p' =>
      have hd : plainChar d := hpost d (List.mem_cons_self _ _)
      rw [show (d :: p').length + 1 = (d :: p').length + 1 from rfl,
        blockMathScan_dollar_step katex (d :: p').length n d p' hd.1,
        blockMathScan_plain_all katex (d :: p') n hpost]
  obtain ⟨c0, a', rfl⟩ : ∃ c0 a', a = c0 :: a' := by
    cases a with
    | nil => simp at hn
    | cons c0 a' => exact ⟨c0, a', rfl⟩
  have hc0 : plainChar c0 := ha c0 (List.mem_cons_self _ _)
  have h4 := blockMathScan_plain_append katex (c0 :: a') (post.length + 1) n ('$' :: post) ha
  rw [h5] at h4
  simp only [List.cons_append] at h4
  have h2 : blockMathScan katex (((c0 :: a').length + (post.length + 1)) + 1) n
        ('$' :: ((c0 :: a') ++ '$' :: post))
      = ('$' :: ((c0 :: a') ++ '$' :: post), []) := by
    simp only [List.cons_append]
    rw [blockMathScan_dollar_step katex ((c0 :: a').length + (post.length + 1)) n c0
        (a' ++ '$' :: post) hc0.1, h4]
  have hlen : (pre ++ '$' :: ((c0 :: a') ++ '$' :: post)).length
      = pre.length + (((c0 :: a').length + (post.length + 1)) + 1) := by
    simp only [List.length_append, List.length_cons]; try omega
  rw [hlen,
    blockMathScan_plain_append katex pre (((c0 :: a').length + (post.length + 1)) + 1) n
      ('$' :: ((c0 :: a') ++ '$' :: post)) hpre,
    h2]

/-! ### Source-line annotator (`annotateTopLevelTokenLines`) -/

/-- `needle.isPrefixOf`-based scan: first index `≥ 0` in `hay` where
`needle` occurs, as in the auxiliary loop of JS `String.indexOf`. -/
def indexOfAux (needle : List Char) : List Char → Nat → Option Nat
  | [], i => if needle.isPrefixOf [] then some i else none
  | c :: r, i =>
    if needle.isPrefixOf (c :: r) then some i else indexOfAux needle r (i + 1)

/-- `hay.indexOf(needle, start)`: first occurrence at offset `≥ start`, or
`none` (JS `-1`). -/
def strIndexOf (hay needle : List Char) (start : Nat) : Option Nat :=
  (indexOfAux needle (hay.drop start) 0).map (· + start)

/-- Offsets of line starts: `[0]` plus `i + 1` for every newline at `i`
(`lineStarts` in `annotateTopLevelTokenLines`, which scans for char code
10). -/
def lineStartsAux : List Char → Nat → List Nat
  | [], _ => []
  | c :: r, i =>
    if c = '\n' then (i + 1) :: lineStartsAux r (i + 1) else lineStartsAux r (i + 1)

def lineStarts (src : List Char) : List Nat := 0 :: lineStartsAux src 0

/-- `indexToLine` of the source: the binary search over the sorted
`lineStarts` array computes the number of entries `≤ idx` (its final `lo`),
then clamps with `Math.max(1, lo)`. -/
def indexToLine (starts : List Nat) (idx : Nat) : Nat :=
  max 1 (starts.countP (fun s => decide (s ≤ idx)))

/-- Processing of one token with a nonempty string `raw`: search from the
cursor; on a hit the hit offset is used, on a miss the cursor offset; the
token line is derived from that offset and the cursor advances past it
(`cursor = (pos >= 0 ? pos : cursor) + raw.length`). -/
def annotateStep (src : List Char) (starts : List Nat) (cursor : Nat)
    (raw : String) : Option Nat × Nat :=
  let pos := strIndexOf src raw.data cursor
  let start := pos.getD cursor
  (some (indexToLine starts start), start + raw.length)

/-- The token loop: tokens whose `raw` is missing or empty are skipped
(`if (!raw || typeof raw !== 'string') continue`), leaving the cursor
untouched; the second component is the final cursor. -/
def annotateTokens (src : List Char) (starts : List Nat) :
    List (Option String) → Nat → List (Option Nat) × Nat
  | [], cursor => ([], cursor)
  | r :: ts, cursor =>
    match r with
    | none =>
      let rest := annotateTokens src starts ts cursor
      (none :: rest.1, rest.2)
    | some s =>
      if s.length = 0 then
        let rest := annotateTokens src starts ts cursor
        (none :: rest.1, rest.2)
      else
        let st := annotateStep src starts cursor s
        let rest := annotateTokens src starts ts st.2
        (st.1 :: rest.1, rest.2)

/-- `annotateTopLevelTokenLines(tokens, src)`: each token is modelled by its
`raw` field; the result pairs the assigned `__srcLine`s with the final
cursor. -/
def annotateTopLevelTokenLines (tokens : List (Option String)) (src : String) :
    List (Option Nat) × Nat :=
  annotateTokens src.data (lineStarts src.data) tokens 0

/-! ### Spec-modelled fragments of the external markdown lexer (for C8) -/

/-- Modelled from the spec: the markdown parser is an out-of-scope external
collaborator (§6); its lexer normalizes line endings by
`src.replace(/\r\n|\r/g, "\n")` before tokenizing. -/
def markedNormalizeEol : List Char → List Char
  | [] => []
  | '\r' :: '\n' :: r => '\n' :: markedNormalizeEol r
  | '\r' :: r => '\n' :: markedNormalizeEol r
  | c :: r => c :: markedNormalizeEol r

def leadingHashes : List Char → Nat
  | '#' :: r => leadingHashes r + 1
  | _ => 0

def firstLine (l : List Char) : List Char := l.takeWhile (fun c => decide (c ≠ '\n'))

/-- Modelled from the spec: the external lexer's ATX-heading token for a
source whose first (normalized) line is `#`{1..6} space text — its `raw` is
that line including the newline and its depth is the number of `#`s. -/
def markedHeadingToken (src : String) : Option (String × Nat) :=
  let norm := markedNormalizeEol src.data
  let depth := leadingHashes norm
  if 1 ≤ depth ∧ depth ≤ 6 ∧ (norm.drop depth).headD ' ' = ' ' then
    some (String.mk (firstLine norm ++ ['\n']), depth)
  else none

/-- The heading special case of `buildLineWrappedRenderer`: the source line
is attached as a `data-src-line` attribute on the heading tag itself via
`inner.replace(/^<(h[1-6])/, ...)`, never as a wrapper div. -/
def headingAddLine (inner : String) (line : Nat) : String :=
  match inner.data with
  | '<' :: 'h' :: d :: rest =>
    if '1' ≤ d ∧ d ≤ '6' then
      String.mk ('<' :: 'h' :: d ::
        ((" data-src-line=\"" ++ toString line ++ "\"").data ++ rest))
    else inner
  | _ => inner

/-! ### Bidirectional scroll synchronizer (`scheduleScrollSync`) -/

inductive SyncSource | editor | preview
deriving DecidableEq, Repr

/-- The synchronizer state in split mode: `scrollSyncLock`, whether a sync
animation frame is pending (`scrollSyncRaf` is a single cancellable handle,
so a boolean models it exactly), and whether a lock-release callback will
run on the next frame. -/
structure SyncState where
  lock : Option SyncSource
  raf : Bool
  releaseNext : Bool
deriving DecidableEq, Repr

/-- `scheduleScrollSync(source)`: ignore the event while the other side
drives; otherwise take the lock and (re)schedule the single sync frame —
the source cancels any pending handle before requesting a new one, so at
most one sync callback is ever outstanding. -/
def scheduleScrollSync (s : SyncState) (v : SyncSource) : SyncState :=
  match s.lock with
  | some w => if w ≠ v then s else { s with lock := some v, raf := true }
  | none => { s with lock := some v, raf := true }

/-- One animation frame.  Callbacks run in request order: a pending release
was requested during the previous frame's sync callback, hence before any
sync callback requested by later events, so the release (setting
`scrollSyncLock = null`) runs first; then the pending sync callback (if
any) applies the synced scroll and requests the release for the *next*
frame. -/
def frameStep (s : SyncState) : SyncState :=
  { lock := if s.releaseNext then none else s.lock
    raf := false
    releaseNext := s.raf }

/-- A burst of scroll/cursor events arriving between two frames. -/
def applyEvents (es : List SyncSource) (s : SyncState) : SyncState :=
  es.foldl scheduleScrollSync s

lemma scheduleScrollSync_raf (s : SyncState) (v : SyncSource) :
    (scheduleScrollSync s v).raf = true ∨ scheduleScrollSync s v = s := by
  unfold scheduleScrollSync
  cases s.lock with
  | none => left; rfl
  | some w =>
    by_cases h : w = v
    · subst h; simp
    · right; simp [h]

lemma applyEvents_raf :
    ∀ (es : List SyncSource) (s : SyncState), s.raf = true →
      (applyEvents es s).raf = true := by
  intro es
  induction es with
  | nil => intro s h; exact h
  | cons e es ih =>
    intro s h
    simp only [applyEvents, List.foldl_cons]
    refine ih _ ?_
    rcases scheduleScrollSync_raf s e with h' | h'
    · exact h'
    · rw [h']; exact h

lemma scheduleScrollSync_releaseNext (s : SyncState) (v : SyncSource) :
    (scheduleScrollSync s v).releaseNext = s.releaseNext := by
  unfold scheduleScrollSync
  cases s.lock with
  | none => rfl
  | some w =>
    by_cases h : w = v
    · subst h; simp
    · simp [h]

lemma applyEvents_releaseNext :
    ∀ (es : List SyncSource) (s : SyncState),
      (applyEvents es s).releaseNext = s.releaseNext := by
  intro es
  induction es with
  | nil => intro s; rfl
  | cons e es ih =>
    intro s
    rw [show applyEvents (e :: es) s = applyEvents es (scheduleScrollSync s e) from rfl,
      ih, scheduleScrollSync_releaseNext]

lemma frameStep_releaseNext (s : SyncState) : (frameStep s).releaseNext = s.raf := rfl

lemma frameStep_lock_of_release (s : SyncState) (h : s.releaseNext = true) :
    (frameStep s).lock = none := by
  simp [frameStep, h]

/-! ### Preview line map builder (`rebuildPreviewLineMap`) -/

/-- The order computed by the JS comparator
`(a, b) => (a.line - b.line) || (a.top - b.top)`: lexicographic on
`(line, top)`. -/
def anchorLe (a b : Int × Int) : Prop := a.1 < b.1 ∨ (a.1 = b.1 ∧ a.2 ≤ b.2)

instance (a b : Int × Int) : Decidable (anchorLe a b) :=
  inferInstanceAs (Decidable (a.1 < b.1 ∨ (a.1 = b.1 ∧ a.2 ≤ b.2)))

instance : IsTotal (Int × Int) anchorLe := by
  constructor
  intro a b
  rcases lt_trichotomy a.1 b.1 with h | h | h
  · exact Or.inl (Or.inl h)
  · rcases le_total a.2 b.2 with h2 | h2
    · exact Or.inl (Or.inr ⟨h, h2⟩)
    · exact Or.inr (Or.inr ⟨h.symm, h2⟩)
  · exact Or.inr (Or.inl h)

instance : IsTrans (Int × Int) anchorLe := by
  constructor
  intro a b c hab hbc
  rcases hab with h1 | ⟨e1, l1⟩ <;> rcases hbc with h2 | ⟨e2, l2⟩
  · exact Or.inl (h1.trans h2)
  · exact Or.inl (e2 ▸ h1)
  · exact Or.inl (e1 ▸ h2)
  · exact Or.inr ⟨e1.trans e2, l1.trans l2⟩

/-- The `map.sort((a, b) => (a.line - b.line) || (a.top - b.top))` call of
`rebuildPreviewLineMap`: any comparator-correct sort; insertion sort is one
such. -/
def sortAnchors (l : List (Int × Int)) : List (Int × Int) :=
  l.insertionSort anchorLe

/-- The dedupe loop: an item whose `line` equals the last pushed entry's
`line` is skipped. -/
def dedupeAux (prev : Int) : List (Int × Int) → List (Int × Int)
  | [] => []
  | y :: ys => if y.1 = prev then dedupeAux prev ys else y :: dedupeAux y.1 ys

def dedupeAnchors : List (Int × Int) → List (Int × Int)
  | [] => []
  | x :: xs => x :: dedupeAux x.1 xs

/-- `rebuildPreviewLineMap`, given the measured `(line, top)` pairs in DOM
order: sort by `(line, top)`, then keep the first entry per distinct line. -/
def rebuildPreviewLineMap (l : List (Int × Int)) : List (Int × Int) :=
  dedupeAnchors (sortAnchors l)

lemma dedupeAux_spec :
    ∀ (xs : List (Int × Int)) (prev : Int),
      List.Pairwise anchorLe xs →
      (∀ y ∈ xs, prev ≤ y.1) →
      List.Chain' (fun a b : Int × Int => a.1 < b.1) (dedupeAux prev xs) ∧
      (∀ z ∈ dedupeAux prev xs, prev < z.1 ∧ z ∈ xs) ∧
      (∀ a ∈ dedupeAux prev xs, ∀ b ∈ xs, b.1 = a.1 → a.2 ≤ b.2) ∧
      (∀ b ∈ xs, b.1 = prev ∨ ∃ a ∈ dedupeAux prev xs, a.1 = b.1) := by
  intro xs
  induction xs with
  | nil => intro prev _ _; refine ⟨List.chain'_nil, ?_, ?_, ?_⟩ <;> simp [dedupeAux]
  | cons y ys ih =>
    intro prev hp hge
    have hy : ∀ b ∈ ys, anchorLe y b := (List.pairwise_cons.mp hp).1
    have hp' : List.Pairwise anchorLe ys := (List.pairwise_cons.mp hp).2
    have hyle : ∀ b ∈ ys, y.1 ≤ b.1 := by
      intro b hb
      rcases hy b hb with h | ⟨h, _⟩
      · exact le_of_lt h
      · exact le_of_eq h
    by_cases hyp : y.1 = prev
    · have hge' : ∀ b ∈ ys, prev ≤ b.1 := fun b hb => hyp ▸ hyle b hb
      obtain ⟨ch, mem, mint, compl⟩ := ih prev hp' hge'
      rw [show dedupeAux prev (y :: ys) = dedupeAux prev ys from by
        simp [dedupeAux, hyp]]
      refine ⟨ch, fun z hz => ⟨(mem z hz).1, List.mem_cons_of_mem _ (mem z hz).2⟩,
        ?_, ?_⟩
      · intro a ha b hb he
        rcases List.mem_cons.mp hb with rfl | hb'
        · exact absurd ((he.symm.trans hyp) ▸ (mem a ha).1) (lt_irrefl _)
        · exact mint a ha b hb' he
      · intro b hb
        rcases List.mem_cons.mp hb with rfl | hb'
        · exact Or.inl hyp
        · exact compl b hb'
    · have hlt : prev < y.1 := lt_of_le_of_ne (hge y (List.mem_cons_self _ _))
        (fun h => hyp h.symm)
      obtain ⟨ch, mem, mint, compl⟩ := ih y.1 hp' hyle
      rw [show dedupeAux prev (y :: ys) = y :: dedupeAux y.1 ys from by
        simp [dedupeAux, hyp]]
      refine ⟨?_, ?_, ?_, ?_⟩
      · rw [List.chain'_cons']
        refine ⟨?_, ch⟩
        intro z hz
        have hzm : z ∈ dedupeAux y.1 ys := List.mem_of_mem_head? hz
        exact (mem z hzm).1
      · intro z hz
        rcases List.mem_cons.mp hz with rfl | hz'
        · exact ⟨hlt, List.mem_cons_self _ _⟩
        · exact ⟨hlt.trans (mem z hz').1, List.mem_cons_of_mem _ (mem z hz').2⟩
      · intro a ha b hb he
        rcases List.mem_cons.mp ha with rfl | ha'
        · rcases List.mem_cons.mp hb with rfl | hb'
          · exact le_refl _
          · rcases hy b hb' with h | ⟨_, h⟩
            · exact absurd (he ▸ h) (lt_irrefl _)
            · exact h
        · rcases List.mem_cons.mp hb with rfl | hb'
          · exact absurd (he ▸ (mem a ha').1) (lt_irrefl _)
          · exact mint a ha' b hb' he
      · intro b hb
        rcases List.mem_cons.mp hb with rfl | hb'
        · exact Or.inr ⟨b, List.mem_cons_self _ _, rfl⟩
        · rcases compl b hb' with h | ⟨a, ha, he⟩
          · exact Or.inr ⟨y, List.mem_cons_self _ _, h.symm⟩
          · exact Or.inr ⟨a, List.mem_cons_of_mem _ ha, he⟩

/-! ### Scroll interpolation (`interpolatePreviewPosition`) -/

def lastOf (a : ℚ × ℚ) : List (ℚ × ℚ) → ℚ × ℚ
  | [] => a
  | b :: r => lastOf b r

/-- The anchor-bracketing loop of `interpolatePreviewPosition`.  `lower` is
reassigned at every index whose `line ≤ editorLine`; the loop breaks with
`upper := map[i]` at the first index satisfying
`map[i].line >= editorLine && (upper.line > editorLine || i == map.length-1)`,
where `upper` still holds its initial value — the last element (`last`) —
because every assignment to it is immediately followed by the break. -/
def findAnchorPair (last : ℚ × ℚ) (x : ℚ) :
    List (ℚ × ℚ) → (ℚ × ℚ) → (ℚ × ℚ) × (ℚ × ℚ)
  | [], lower => (lower, last)
  | a :: rest, lower =>
    let lower' := if a.1 ≤ x then a else lower
    if x ≤ a.1 ∧ (x < last.1 ∨ rest = []) then (lower', a)
    else findAnchorPair last x rest lower'

/-- `interpolatePreviewPosition(editorLine, totalLines)` over exact
rationals (the `totalLines` parameter is unused in the source body;
`maxScroll` stands for the DOM read
`preview.scrollHeight - preview.clientHeight`).  Returns `none` when fewer
than 2 anchors exist; when the bracketing anchors coincide it returns
`Math.min(lower.top, previewMaxScroll)`; otherwise the linear interpolation
clamped by `Math.max(0, Math.min(·, previewMaxScroll))`. -/
def interpolatePreviewPosition (map : List (ℚ × ℚ)) (editorLine maxScroll : ℚ) :
    Option ℚ :=
  match map with
  | a0 :: a1 :: rest =>
    let lastA := lastOf a1 rest
    let p := findAnchorPair lastA editorLine (a0 :: a1 :: rest) a0
    if p.1.1 = p.2.1 then some (min p.1.2 maxScroll)
    else
      some (max 0 (min
        (p.1.2 + (editorLine - p.1.1) / (p.2.1 - p.1.1) * (p.2.2 - p.1.2))
        maxScroll))
  | _ => none

/-- The anchor map of the spec's interpolation-bounds property. -/
def threeAnchors : List (ℚ × ℚ) := [(1, 0), (50, 500), (100, 1200)]

lemma findAnchorPair_lower_mem (last : ℚ × ℚ) (x : ℚ) :
    ∀ (l : List (ℚ × ℚ)) (lower : ℚ × ℚ),
      (findAnchorPair last x l lower).1 = lower ∨
      (findAnchorPair last x l lower).1 ∈ l := by
  intro l
  induction l with
  | nil => intro lower; exact Or.inl rfl
  | cons a rest ih =>
    intro lower
    simp only [findAnchorPair]
    by_cases hc : x ≤ a.1 ∧ (x < last.1 ∨ rest = [])
    · rw [if_pos hc]
      by_cases hla : a.1 ≤ x
      · rw [if_pos hla]
        exact Or.inr (List.mem_cons_self _ _)
      · rw [if_neg hla]
        exact Or.inl rfl
    · rw [if_neg hc]
      by_cases hla : a.1 ≤ x
      · rw [if_pos hla]
        rcases ih a with h | h
        · refine Or.inr ?_
          rw [h]
          exact List.mem_cons_self _ _
        · exact Or.inr (List.mem_cons_of_mem _ h)
      · rw [if_neg hla]
        rcases ih lower with h | h
        · exact Or.inl h
        · exact Or.inr (List.mem_cons_of_mem _ h)

/-- Any offset returned by `interpolatePreviewPosition` lies in
`[0, maxScroll]` provided every anchor top is nonnegative and the scroll
range is nonnegative: the interpolation branch is clamped explicitly, and
the equal-anchors branch returns `min(lower.top, maxScroll)` with
`lower` one of the anchors. -/
lemma interpolatePreviewPosition_bounds (a0 a1 : ℚ × ℚ) (rest : List (ℚ × ℚ))
    (x M r : ℚ) (hM : 0 ≤ M) (htop : ∀ p ∈ a0 :: a1 :: rest, 0 ≤ p.2)
    (h : interpolatePreviewPosition (a0 :: a1 :: rest) x M = some r) :
    0 ≤ r ∧ r ≤ M := by
  simp only [interpolatePreviewPosition] at h
  have hmem := findAnchorPair_lower_mem (lastOf a1 rest) x (a0 :: a1 :: rest) a0
  have hlow : 0 ≤ (findAnchorPair (lastOf a1 rest) x (a0 :: a1 :: rest) a0).1.2 := by
    rcases hmem with he | hm
    · rw [he]; exact htop a0 (List.mem_cons_self _ _)
    · exact htop _ hm
  split_ifs at h
  · simp only [Option.some.injEq] at h
    subst h
    exact ⟨le_min hlow hM, min_le_right _ _⟩
  · simp only [Option.some.injEq] at h
    subst h
    exact ⟨le_max_left _ _, max_le hM (min_le_right _ _)⟩

/-! ### Foldable section builder (`convertToFoldable`) -/

/-- One heading found by the scan over
`/<(h[1-3])([^>]*)>([\s\S]*?)<\/\1>/g`, with its `[start, end)` offsets. -/
structure Heading where
  tag : List Char
  level : Nat
  attrs : List Char
  text : List Char
  start : Nat
  endPos : Nat
deriving Repr, DecidableEq

def digitLevel (c : Char) : Option Nat :=
  if c = '1' then some 1 else if c = '2' then some 2
  else if c = '3' then some 3 else none

/-- The `([^>]*)>` part: attributes up to the first `>`. -/
def splitToGt : List Char → Option (List Char × List Char)
  | [] => none
  | c :: r =>
    if c = '>' then some ([], r) else (splitToGt r).map (fun p => (c :: p.1, p.2))

/-- The lazy `([\s\S]*?)` up to the first occurrence of `needle`
(the backreferenced closing tag): returns the text before it and the rest
after it. -/
def splitAtSub (needle : List Char) : List Char → Option (List Char × List Char)
  | [] => if needle.isPrefixOf [] then some ([], []) else none
  | c :: r =>
    if needle.isPrefixOf (c :: r) then some ([], (c :: r).drop needle.length)
    else (splitAtSub needle r).map (fun p => (c :: p.1, p.2))

/-- The `headingRegex.exec` loop collecting all H1–H3 headings with their
offsets; on a failed attempt the engine advances one character.  Fuel
bounds the number of steps; each step consumes at least one character. -/
def scanHeadings : Nat → List Char → Nat → List Heading
  | 0, _, _ => []
  | _ + 1, [], _ => []
  | fuel + 1, '<' :: 'h' :: c :: rest, i =>
    match digitLevel c with
    | some lvl =>
      match splitToGt rest with
      | some (attrs, afterGt) =>
        match splitAtSub ['<', '/', 'h', c, '>'] afterGt with
        | some (txt, after) =>
          let fullLen := 3 + attrs.length + 1 + txt.length + 5
          { tag := ['h', c], level := lvl, attrs := attrs, text := txt,
            start := i, endPos := i + fullLen }
            :: scanHeadings fuel after (i + fullLen)
        | none => scanHeadings fuel ('h' :: c :: rest) (i + 1)
      | none => scanHeadings fuel ('h' :: c :: rest) (i + 1)
    | none => scanHeadings fuel ('h' :: c :: rest) (i + 1)
  | fuel + 1, _ :: rest, i => scanHeadings fuel rest (i + 1)

/-- `html.slice(a, b)`. -/
def sliceL (l : List Char) (a b : Nat) : List Char := (l.drop a).take (b - a)

def isWs (c : Char) : Bool :=
  c = ' ' || c = '\t' || c = '\n' || c = '\r'

/-- JS `String.prototype.trim`. -/
def trimChars (l : List Char) : List Char :=
  ((l.dropWhile isWs).reverse.dropWhile isWs).reverse

/-- The markup emitted for one foldable section. -/
def secHtml (h : Heading) (processed : List Char) : List Char :=
  "<details open><summary><".data ++ h.tag ++ h.attrs ++ ['>'] ++ h.text
    ++ "</".data ++ h.tag ++ ['>'] ++ "</summary>".data
    ++ (if processed = [] then []
        else "<div class=\"fold-content\">".data ++ processed ++ "</div>".data)
    ++ "</details>".data

/-- The heading-walking loop of `convertToFoldable`: for heading `h` the
section runs to the first later heading of level `≤ h.level` (else document
end); the captured body is trimmed and recursively processed (`conv`);
headings starting inside the consumed span are skipped (the inner
`while (i+1 < n && headings[i+1].start < sectionEnd) i++`).  The `Nat`
argument bounds the recursion structurally (one unit per emitted
section). -/
def buildSecs (conv : List Char → List Char) (html : List Char)
    (totalLen : Nat) : Nat → List Heading → Nat → List Char
  | 0, _, lastEnd => sliceL html lastEnd totalLen
  | _ + 1, [], lastEnd => sliceL html lastEnd totalLen
  | hfuel + 1, h :: rest, lastEnd =>
    let sectionEnd :=
      ((rest.find? (fun g => decide (g.level ≤ h.level))).map Heading.start).getD
        totalLen
    let content := trimChars (sliceL html h.endPos sectionEnd)
    let processed := if content = [] then [] else conv content
    let rest' := rest.dropWhile (fun g => decide (g.start < sectionEnd))
    sliceL html lastEnd h.start ++ secHtml h processed
      ++ buildSecs conv html totalLen hfuel rest' sectionEnd

/-- `convertToFoldable` with explicit recursion fuel: every recursive call
processes a strict substring (the body starts after the heading's positive
end offset), so depth is bounded by the input length and the wrapper below
passes exactly that. -/
def convertFuel : Nat → List Char → List Char
  | 0, html => html
  | fuel + 1, html =>
    let hs := scanHeadings html.length html 0
    if hs = [] then html
    else buildSecs (convertFuel fuel) html html.length hs.length hs 0

def convertToFoldable (html : String) : String :=
  String.mk (convertFuel html.data.length html.data)

/-- Counts `<details` openings at nesting depth 0 in an HTML string —
the number of top-level foldable sections. -/
def countDetails : Nat → List Char → Nat → Nat → Nat
  | 0, _, _, cnt => cnt
  | _ + 1, [], _, cnt => cnt
  | fuel + 1, c :: rest, depth, cnt =>
    if "<details".data.isPrefixOf (c :: rest) then
      countDetails fuel ((c :: rest).drop 8) (depth + 1)
        (if depth = 0 then cnt + 1 else cnt)
    else if "</details>".data.isPrefixOf (c :: rest) then
      countDetails fuel ((c :: rest).drop 10) (depth - 1) cnt
    else countDetails fuel rest depth cnt

def countTopLevelDetails (html : String) : Nat :=
  countDetails html.data.length html.data 0 0

/-! ### Footnotes: extraction, reference placeholders, restoration -/

/-- Lines of a string, split at `\n` (the `m`-flagged `^`/`$` anchors of the
footnote-definition regex operate per line). -/
def splitLinesAux : List Char → List Char → List (List Char)
  | [], acc => [acc.reverse]
  | '\n' :: r, acc => acc.reverse :: splitLinesAux r []
  | c :: r, acc => splitLinesAux r (c :: acc)

def splitLines (l : List Char) : List (List Char) := splitLinesAux l []

/-- One line matched against the definition regex `^\[\^([^\]]+)\]:\s*(.+)$`:
the id is the (nonempty) run of non-`]` characters, at least one character
must follow the colon, and the stored body is `body.trim()` — together with
the regex's leading `\s*` this trims everything after the colon. -/
def parseFnDef (line : List Char) : Option (String × String) :=
  match line with
  | '[' :: '^' :: rest =>
    let idPart := rest.takeWhile (fun c => decide (c ≠ ']'))
    let after := rest.drop idPart.length
    if idPart = [] then none
    else
      match after with
      | ']' :: ':' :: rest2 =>
        if rest2 = [] then none
        else some (String.mk idPart, String.mk (trimChars rest2))
      | _ => none
  | _ => none

/-- JS `Map.set`: an existing key keeps its insertion position and gets the
new value; a new key is appended. -/
def mapSet (m : List (String × String)) (k v : String) : List (String × String) :=
  if m.any (fun p => decide (p.1 = k)) then
    m.map (fun p => if p.1 = k then (k, v) else p)
  else m ++ [(k, v)]

def extractFnAux : List (List Char) → List (String × String) →
    List (List Char) × List (String × String)
  | [], m => ([], m)
  | ln :: rest, m =>
    match parseFnDef ln with
    | some (id, body) =>
      let r := extractFnAux rest (mapSet m id body)
      ([] :: r.1, r.2)
    | none =>
      let r := extractFnAux rest m
      (ln :: r.1, r.2)

/-- The definition-extraction replace: each matching line is replaced by the
empty string (the newline survives) while `footnotes.set(id, body.trim())`
populates the insertion-ordered map. -/
def extractFootnoteDefs (content : String) : String × List (String × String) :=
  let r := extractFnAux (splitLines content.data) []
  (String.mk (List.intercalate ['\n'] r.1), r.2)

/-- The inline-reference replace over `/\[\^([^\]]+)\]/g`: each `[^id]`
becomes the opaque placeholder `<!--FNREF_id-->`. -/
def fnRefScan : Nat → List Char → List Char
  | 0, l => l
  | _ + 1, [] => []
  | fuel + 1, '[' :: '^' :: rest =>
    let idPart := rest.takeWhile (fun c => decide (c ≠ ']'))
    let after := rest.drop idPart.length
    if idPart = [] then '[' :: fnRefScan fuel ('^' :: rest)
    else
      match after with
      | ']' :: rest2 =>
        "<!--FNREF_".data ++ idPart ++ "-->".data ++ fnRefScan fuel rest2
      | _ => '[' :: fnRefScan fuel ('^' :: rest)
  | fuel + 1, c :: rest => c :: fnRefScan fuel rest

def replaceFnRefs (content : String) : String :=
  String.mk (fnRefScan content.data.length content.data)

/-- The backlink-bearing superscript emitted when a definition exists. -/
def backlinkSup (id : List Char) : List Char :=
  "<sup class=\"footnote-ref\"><a href=\"#fn-".data ++ id
    ++ "\" id=\"fnref-".data ++ id ++ "\">[".data ++ id ++ "]</a></sup>".data

/-- The bare bracketed superscript emitted when no definition exists. -/
def bareSup (id : List Char) : List Char :=
  "<sup class=\"footnote-ref\">[".data ++ id ++ "]</sup>".data

def lookupFn (m : List (String × String)) (id : List Char) : Bool :=
  m.any (fun p => decide (p.1.data = id))

/-- The restoration replace over `/<!--FNREF_([^-]+)-->/g`: note the
captured id is a run of non-hyphen characters, so a placeholder whose id
contains `-` can never match. -/
def fnRestoreScan (m : List (String × String)) : Nat → List Char → List Char
  | 0, l => l
  | _ + 1, [] => []
  | fuel + 1, c :: rest =>
    if "<!--FNREF_".data.isPrefixOf (c :: rest) then
      let afterPre := (c :: rest).drop 10
      let idPart := afterPre.takeWhile (fun d => decide (d ≠ '-'))
      let afterId := afterPre.drop idPart.length
      if idPart = [] then c :: fnRestoreScan m fuel rest
      else if "-->".data.isPrefixOf afterId then
        (if lookupFn m idPart then backlinkSup idPart else bareSup idPart)
          ++ fnRestoreScan m fuel (afterId.drop 3)
      else c :: fnRestoreScan m fuel rest
    else c :: fnRestoreScan m fuel rest

/-- The `.replace(/<\/?p>/g, '')` applied to each re-rendered footnote
body. -/
def stripPTags : Nat → List Char → List Char
  | 0, l => l
  | _ + 1, [] => []
  | fuel + 1, c :: rest =>
    if "<p>".data.isPrefixOf (c :: rest) then
      stripPTags fuel ((c :: rest).drop 3)
    else if "</p>".data.isPrefixOf (c :: rest) then
      stripPTags fuel ((c :: rest).drop 4)
    else c :: stripPTags fuel rest

/-- One `<li>` of the synthesized footnote list; `md` is the external
markdown parser re-rendering the body (`marked.parse`). -/
def fnItem (md : String → String) (p : String × String) : List Char :=
  "<li id=\"fn-".data ++ p.1.data ++ "\" class=\"footnote-item\"><p>".data
    ++ stripPTags (md p.2).data.length (md p.2).data
    ++ " <a href=\"#fnref-".data ++ p.1.data
    ++ "\" class=\"footnote-backref\">↩</a></p></li>".data

/-- The footnote section appended after all content when at least one
definition exists, in definition-map insertion order. -/
def footnotesSection (md : String → String) (m : List (String × String)) :
    List Char :=
  if m = [] then []
  else
    "<hr class=\"footnotes-sep\"><section class=\"footnotes\"><ol class=\"footnotes-list\">".data
      ++ (m.map (fnItem md)).flatten ++ "</ol></section>".data

/-- The footnote part of the placeholder restorer: replace the reference
placeholders, then append the synthesized list. -/
def restoreFootnotes (md : String → String) (html : String)
    (m : List (String × String)) : String :=
  String.mk (fnRestoreScan m html.data.length html.data ++ footnotesSection md m)

/-- An identity stand-in for the external markdown parser: top-level HTML
comments (the placeholders) pass through `marked` unchanged, which is all
the placeholder bookkeeping depends on. -/
def idRender : String → String := fun s => s

/-- The footnote slice of `updatePreview`: extract definitions, replace
references by placeholders, parse (`md`), restore. -/
def fnPipeline (md : String → String) (input : String) : String :=
  let e := extractFootnoteDefs input
  let content := replaceFnRefs e.1
  restoreFootnotes md (md content) e.2

/-- Occurrences of `needle` in a string (non-overlapping, left to right). -/
def countSub (needle : List Char) : Nat → List Char → Nat
  | 0, _ => 0
  | _ + 1, [] => 0
  | fuel + 1, c :: rest =>
    if needle.isPrefixOf (c :: rest) then
      1 + countSub needle fuel ((c :: rest).drop needle.length)
    else countSub needle fuel rest

/-- Literal placeholder tokens of any category remaining in a final HTML
string. -/
def countPlaceholders (html : String) : Nat :=
  countSub "<!--QIITA_NOTE_".data html.data.length html.data
    + countSub "<!--GH_ALERT_".data html.data.length html.data
    + countSub "<!--OBSIDIAN_CALLOUT_".data html.data.length html.data
    + countSub "<!--FNREF_".data html.data.length html.data
    + countSub "<!--MATH_BLOCK_".data html.data.length html.data
    + countSub "<!--MATH_INLINE_".data html.data.length html.data

end Mdvim

/-- Claim C5: every preview line map produced by the builder has strictly
increasing `line` values (hence no duplicates); every kept anchor is one of
the measured anchors and carries the smallest `top` among the measured
anchors of its line; and every measured line is represented. -/
theorem C5_line_map_invariant (l : List (Int × Int)) :
    List.Chain' (fun a b : Int × Int => a.1 < b.1) (Mdvim.rebuildPreviewLineMap l) ∧
    (∀ a ∈ Mdvim.rebuildPreviewLineMap l,
      a ∈ l ∧ ∀ b ∈ l, b.1 = a.1 → a.2 ≤ b.2) ∧
    (∀ b ∈ l, ∃ a ∈ Mdvim.rebuildPreviewLineMap l, a.1 = b.1) := by
  have hperm : List.Perm (Mdvim.sortAnchors l) l :=
    List.perm_insertionSort Mdvim.anchorLe l
  have hsorted : List.Sorted Mdvim.anchorLe (Mdvim.sortAnchors l) :=
    List.sorted_insertionSort Mdvim.anchorLe l
  cases hs : Mdvim.sortAnchors l with
  | nil =>
    rw [hs] at hperm
    have hl : l = [] := hperm.symm.eq_nil
    subst hl
    refine ⟨?_, ?_, ?_⟩ <;>
      simp [Mdvim.rebuildPreviewLineMap, hs, Mdvim.dedupeAnchors, Mdvim.sortAnchors]
  | cons x xs =>
    rw [hs] at hperm hsorted
    have hx : ∀ b ∈ xs, Mdvim.anchorLe x b := (List.pairwise_cons.mp hsorted).1
    have hp' : List.Pairwise Mdvim.anchorLe xs := (List.pairwise_cons.mp hsorted).2
    have hxle : ∀ b ∈ xs, x.1 ≤ b.1 := by
      intro b hb
      rcases hx b hb with h | ⟨h, _⟩
      · exact le_of_lt h
      · exact le_of_eq h
    obtain ⟨ch, mem, mint, compl⟩ := Mdvim.dedupeAux_spec xs x.1 hp' hxle
    have hre : Mdvim.rebuildPreviewLineMap l = x :: Mdvim.dedupeAux x.1 xs := by
      rw [Mdvim.rebuildPreviewLineMap, hs]; rfl
    rw [hre]
    have hmem_l : ∀ c, c ∈ x :: xs → c ∈ l := fun c hc => hperm.mem_iff.mp hc
    have hmem_s : ∀ c, c ∈ l → c ∈ x :: xs := fun c hc => hperm.mem_iff.mpr hc
    refine ⟨?_, ?_, ?_⟩
    · rw [List.chain'_cons']
      refine ⟨?_, ch⟩
      intro z hz
      exact (mem z (List.mem_of_mem_head? hz)).1
    · intro a ha
      rcases List.mem_cons.mp ha with rfl | ha'
      · refine ⟨hmem_l a (List.mem_cons_self _ _), ?_⟩
        intro b hb he
        rcases List.mem_cons.mp (hmem_s b hb) with rfl | hb'
        · exact le_refl _
        · rcases hx b hb' with h | ⟨_, h⟩
          · exact absurd (he ▸ h) (lt_irrefl _)
          · exact h
      · refine ⟨hmem_l a (List.mem_cons_of_mem _ (mem a ha').2), ?_⟩
        intro b hb he
        rcases List.mem_cons.mp (hmem_s b hb) with rfl | hb'
        · exact absurd (he ▸ (mem a ha').1) (lt_irrefl _)
        · exact mint a ha' b hb' he
    · intro b hb
      rcases List.mem_cons.mp (hmem_s b hb) with rfl | hb'
      · exact ⟨b, List.mem_cons_self _ _, rfl⟩
      · rcases compl b hb' with h | ⟨a, ha, he⟩
        · exact ⟨x, List.mem_cons_self _ _, h.symm⟩
        · exact ⟨a, List.mem_cons_of_mem _ ha, he⟩

/-- Witness for C5: on the measured anchors `[(2,5),(1,7),(2,3)]` some kept
anchor carries line 2. -/
theorem C5_witness :
    ∃ a ∈ Mdvim.rebuildPreviewLineMap [((2 : Int), (5 : Int)), (1, 7), (2, 3)],
      a.1 = 2 :=
  (C5_line_map_invariant [((2 : Int), (5 : Int)), (1, 7), (2, 3)]).2.2
    (2, 5) (by decide)

/-- Claim C4: (i) a scroll/cursor event from a view is ignored (the state is
unchanged) whenever the opposite view holds the drive lock; (ii) an accepted
event takes the lock and leaves exactly one pending sync frame — the pending
flag is boolean and re-scheduling is idempotent; (iii) after a sync frame
runs, the release runs on the following frame; and (iv) from any state with
a pending sync frame, whatever bursts of events (alternating or not) arrive
between frames, the lock is `null` again after at most two animation
frames — no infinite mutual triggering. -/
theorem C4_drive_lock :
    (∀ (s : Mdvim.SyncState) (v w : Mdvim.SyncSource),
        s.lock = some w → w ≠ v → Mdvim.scheduleScrollSync s v = s) ∧
    (∀ (s : Mdvim.SyncState) (v : Mdvim.SyncSource),
        s.lock = none ∨ s.lock = some v →
        (Mdvim.scheduleScrollSync s v).lock = some v ∧
        (Mdvim.scheduleScrollSync s v).raf = true ∧
        Mdvim.scheduleScrollSync (Mdvim.scheduleScrollSync s v) v
          = Mdvim.scheduleScrollSync s v) ∧
    (∀ s : Mdvim.SyncState, s.raf = true →
        (Mdvim.frameStep s).releaseNext = true ∧
        (Mdvim.frameStep (Mdvim.frameStep s)).lock = none) ∧
    (∀ (s : Mdvim.SyncState) (es1 es2 : List Mdvim.SyncSource), s.raf = true →
        (Mdvim.frameStep (Mdvim.applyEvents es2
            (Mdvim.frameStep (Mdvim.applyEvents es1 s)))).lock = none) := by
  refine ⟨?_, ?_, ?_, ?_⟩
  · intro s v w hl hne
    unfold Mdvim.scheduleScrollSync
    rw [hl]
    simp [hne]
  · intro s v hl
    rcases hl with hl | hl <;>
      · unfold Mdvim.scheduleScrollSync
        rw [hl]
        simp [Mdvim.scheduleScrollSync]
  · intro s h
    constructor
    · simp [Mdvim.frameStep, h]
    · simp [Mdvim.frameStep, h]
  · intro s es1 es2 h
    have h1 : (Mdvim.applyEvents es1 s).raf = true := Mdvim.applyEvents_raf es1 s h
    have h2 : (Mdvim.frameStep (Mdvim.applyEvents es1 s)).releaseNext = true := by
      rw [Mdvim.frameStep_releaseNext, h1]
    have h3 : (Mdvim.applyEvents es2
        (Mdvim.frameStep (Mdvim.applyEvents es1 s))).releaseNext = true := by
      rw [Mdvim.applyEvents_releaseNext, h2]
    exact Mdvim.frameStep_lock_of_release _ h3

/-- Witness for C4 at a concrete trace: the editor holds the lock with a
sync frame pending; an editor event arrives, a frame runs, a preview event
arrives, a second frame runs — the lock is free. -/
theorem C4_witness :
    (Mdvim.frameStep (Mdvim.applyEvents [Mdvim.SyncSource.preview]
        (Mdvim.frameStep (Mdvim.applyEvents [Mdvim.SyncSource.editor]
          { lock := some Mdvim.SyncSource.editor, raf := true,
            releaseNext := false })))).lock = none :=
  C4_drive_lock.2.2.2
    { lock := some Mdvim.SyncSource.editor, raf := true, releaseNext := false }
    [Mdvim.SyncSource.editor] [Mdvim.SyncSource.preview] rfl

/-- Claim C2 (counterexample): the raw text `"zz"` cannot be found in the
source `"abc"` at or after cursor 0; the token is indeed assigned the
cursor's line (1), but the final cursor is 2, not 0 — the annotator advances
the cursor by `raw.length` even on a miss, contradicting the claim that the
cursor is not advanced. -/
theorem C2_counterexample :
    Mdvim.strIndexOf "abc".data "zz".data 0 = none ∧
    (Mdvim.annotateTopLevelTokenLines [some "zz"] "abc").2 ≠ 0 ∧
    Mdvim.annotateTopLevelTokenLines [some "zz"] "abc" = ([some 1], 2) := by
  refine ⟨by decide, by decide, by decide⟩

/-- Claim C2 (amended): for every token whose raw text cannot be found at or
after the cursor, the token is assigned the line of the current cursor
position and the cursor is advanced by the length of the raw text
(`cursor + raw.length`).  The second conjunct shows the advance is
observable: after the missing token `"zzzz"` (cursor 0 → 4), the following
token `"ab"` — which does occur at offset 0 of `"ab\ncd"` but only before
the cursor — is assigned line 2, not line 1. -/
theorem C2_amended :
    (∀ (src : List Char) (starts : List Nat) (cursor : Nat) (raw : String),
        Mdvim.strIndexOf src raw.data cursor = none →
        Mdvim.annotateStep src starts cursor raw
          = (some (Mdvim.indexToLine starts cursor), cursor + raw.length)) ∧
    Mdvim.annotateTopLevelTokenLines [some "zzzz", some "ab"] "ab\ncd"
      = ([some 1, some 2], 6) := by
  constructor
  · intro src starts cursor raw h
    simp [Mdvim.annotateStep, h]
  · decide

/-- Witness for the amended C2 at a concrete miss: raw `"zz"`, source
`"abc"`, cursor 0. -/
theorem C2_witness :
    Mdvim.annotateStep "abc".data (Mdvim.lineStarts "abc".data) 0 "zz" = (some 1, 2) :=
  (C2_amended.1 "abc".data (Mdvim.lineStarts "abc".data) 0 "zz" (by decide)).trans
    (by decide)

/-- Claim C8: for the CRLF input `"## Section\r\nBody\r\n"` the pipeline
detects a level-2 heading annotated with source line 1.  The external lexer
(spec-modelled, §6) yields a depth-2 heading token with raw
`"## Section\n"`; the embedded annotator assigns line 1 whether the raw
comes back CRLF-normalized (a miss at cursor 0, whose line is 1) or verbatim
(a hit at offset 0); and the embedded heading renderer stamps
`data-src-line="1"` onto the `<h2>` tag itself. -/
theorem C8_crlf_heading :
    Mdvim.markedHeadingToken "## Section\r\nBody\r\n" = some ("## Section\n", 2) ∧
    (∀ raw : String, raw = "## Section\n" ∨ raw = "## Section\r\n" →
      (Mdvim.annotateTopLevelTokenLines [some raw, some "Body\n"]
          "## Section\r\nBody\r\n").1.headD none = some 1) ∧
    Mdvim.headingAddLine "<h2>Section</h2>" 1 = "<h2 data-src-line=\"1\">Section</h2>" := by
  refine ⟨by decide, ?_, by decide⟩
  rintro raw (rfl | rfl) <;> decide

/-- Witness for C8 with the CRLF-normalized raw. -/
theorem C8_witness :
    (Mdvim.annotateTopLevelTokenLines [some "## Section\n", some "Body\n"]
        "## Section\r\nBody\r\n").1.headD none = some 1 :=
  C8_crlf_heading.2.1 "## Section\n" (Or.inl rfl)

/-- Claim C1 (counterexample): on the input `"Price: $100 and $x$"` the math
preprocessing pass renders no math expression at all — the side table stays
empty (length 0, not 1) and the text is returned unchanged.  The inline
regex first matches `$100 and $`; the currency guard returns it as literal
text, but JS `String.replace` still resumes scanning after the whole match,
so the dollar that would have opened `$x$` has already been consumed. -/
theorem C1_counterexample :
    (Mdvim.processMath Mdvim.katexStub "Price: $100 and $x$").2.length ≠ 1 ∧
    Mdvim.processMath Mdvim.katexStub "Price: $100 and $x$"
      = ("Price: $100 and $x$", []) := by
  exact ⟨by decide, by rfl⟩

/-- Claim C1 (amended): for the input string `"Price: $100 and $x$"`, the
math preprocessing pass renders zero math expressions and leaves the whole
string literal — `$100` stays literal as claimed, but `$x$` is not rendered
either, because the currency-guarded match `$100 and $` consumes the dollar
that would open it.  This holds for every KaTeX renderer since the guard
path never invokes it. -/
theorem C1_amended (katex : String → Bool → String) :
    Mdvim.processMath katex "Price: $100 and $x$" = ("Price: $100 and $x$", []) := rfl

/-- Claim C10: an inline-math candidate delimited by single dollars whose
interior contains a newline is left unchanged by the math preprocessing
pass — inline math never spans source lines, since the interior class
`[^\$\n]` of the inline regex excludes newlines.  Stated for any context
`pre`/`post` and interior `a` free of dollars and backslashes (so that no
other math trigger overlaps the candidate), and for any KaTeX renderer. -/
theorem C10_newline_never_inline_math (katex : String → Bool → String)
    (pre a post : List Char)
    (hn : '\n' ∈ a)
    (hpre : ∀ c ∈ pre, Mdvim.plainChar c)
    (ha : ∀ c ∈ a, Mdvim.plainChar c)
    (hpost : ∀ c ∈ post, Mdvim.plainChar c) :
    Mdvim.processMath katex (String.mk (pre ++ '$' :: (a ++ '$' :: post)))
      = (String.mk (pre ++ '$' :: (a ++ '$' :: post)), []) := by
  have hs : (String.mk (pre ++ '$' :: (a ++ '$' :: post))).data
      = pre ++ '$' :: (a ++ '$' :: post) := rfl
  have hb := Mdvim.blockMathScan_newline_skip katex pre a post 0 hn hpre ha hpost
  have hi := Mdvim.inlineMathScan_newline_skip katex pre a post 0 hn hpre ha hpost
  simp only [Mdvim.processMath, hs, hb, hi, List.length_nil]
  simp

/-- Witness for C10 at a concrete input: `"q $y\nz$ w"` is untouched and
produces no math side-table entry. -/
theorem C10_witness :
    Mdvim.processMath Mdvim.katexStub
        (String.mk ("q ".data ++ '$' :: ("y\nz".data ++ '$' :: " w".data)))
      = (String.mk ("q ".data ++ '$' :: ("y\nz".data ++ '$' :: " w".data)), []) :=
  C10_newline_never_inline_math Mdvim.katexStub "q ".data "y\nz".data " w".data
    (by decide) (by decide) (by decide) (by decide)


/-- Claim C6: with anchors `[(1,0),(50,500),(100,1200)]`, editor line 25
interpolates to `0 + (25-1)/(50-1)*(500-0) = 12000/49 ≈ 244.9` (whenever
the preview can scroll that far), and for every editor line the returned
offset lies within `[0, maxPreviewScroll]`. -/
theorem C6_interpolation (M : ℚ) (hM : 0 ≤ M) :
    ((12000 : ℚ) / 49 ≤ M →
      Mdvim.interpolatePreviewPosition Mdvim.threeAnchors 25 M
        = some (12000 / 49)) ∧
    (∀ x r : ℚ,
      Mdvim.interpolatePreviewPosition Mdvim.threeAnchors x M = some r →
      0 ≤ r ∧ r ≤ M) := by
  constructor
  · intro hM'
    have hp : Mdvim.findAnchorPair (100, 1200) 25
          [((1 : ℚ), (0 : ℚ)), (50, 500), (100, 1200)] (1, 0)
        = ((1, 0), (50, 500)) := by decide
    have e1 : Mdvim.interpolatePreviewPosition Mdvim.threeAnchors 25 M
        = some (max 0 (min (12000 / 49) M)) := by
      simp only [Mdvim.interpolatePreviewPosition, Mdvim.threeAnchors,
        Mdvim.lastOf, hp]
      norm_num
    rw [e1, min_eq_left hM', max_eq_right (by norm_num)]
  · intro x r h
    exact Mdvim.interpolatePreviewPosition_bounds (1, 0) (50, 500) [(100, 1200)]
      x M r hM (by decide) h

/-- Witness for C6 at `maxPreviewScroll = 1000`, editor line 25. -/
theorem C6_witness :
    Mdvim.interpolatePreviewPosition Mdvim.threeAnchors 25 1000
      = some (12000 / 49) :=
  (C6_interpolation 1000 (by norm_num)).1 (by norm_num)

set_option maxRecDepth 8000 in
/-- Claim C7: for the flat heading HTML of `#A, ##B, #C` (each with a body
paragraph) the foldable builder emits exactly 2 top-level fold sections —
A's section contains B's section nested inside its fold content, and C's
section is a separate sibling — never 3 siblings. -/
theorem C7_fold_nesting :
    Mdvim.convertToFoldable "<h1>A</h1><p>a</p><h2>B</h2><p>b</p><h1>C</h1><p>c</p>"
      = "<details open><summary><h1>A</h1></summary><div class=\"fold-content\"><p>a</p><details open><summary><h2>B</h2></summary><div class=\"fold-content\"><p>b</p></div></details></div></details><details open><summary><h1>C</h1></summary><div class=\"fold-content\"><p>c</p></div></details>" ∧
    Mdvim.countTopLevelDetails
      (Mdvim.convertToFoldable "<h1>A</h1><p>a</p><h2>B</h2><p>b</p><h1>C</h1><p>c</p>")
      = 2 := by
  exact ⟨by decide, by decide⟩

set_option maxRecDepth 8000 in
/-- Claim C3 (code bug, evaluated): for the well-formed input
`"Text [^a-b]\n\n[^a-b]: Note"` — N = 0 math expressions, M = 0
notes/alerts/callouts, K = 1 footnote reference — the final HTML contains
ONE literal placeholder token (`<!--FNREF_a-b-->`) and ZERO restored
reference fragments, not zero and one as the claim requires: the extraction
regex `[^\]]+` accepts hyphens in footnote ids while the restoration regex
`[^-]+` cannot match them. -/
theorem C3_placeholder_leak :
    Mdvim.countPlaceholders
        (Mdvim.fnPipeline Mdvim.idRender "Text [^a-b]\n\n[^a-b]: Note") = 1 ∧
    Mdvim.countSub "<sup".data
        (Mdvim.fnPipeline Mdvim.idRender "Text [^a-b]\n\n[^a-b]: Note").data.length
        (Mdvim.fnPipeline Mdvim.idRender "Text [^a-b]\n\n[^a-b]: Note").data = 0 ∧
    (Mdvim.extractFootnoteDefs "Text [^a-b]\n\n[^a-b]: Note").2.length = 1 ∧
    (Mdvim.processMath Mdvim.katexStub "Text [^a-b]\n\n[^a-b]: Note").2.length = 0 ∧
    Mdvim.countPlaceholders
        (Mdvim.fnPipeline Mdvim.idRender "Text [^note1]\n\n[^note1]: Good") = 0 := by
  refine ⟨by decide, by decide, by decide, by decide, by decide⟩

set_option maxRecDepth 8000 in
/-- Claim C9 (code bug, evaluated): a footnote reference placeholder whose
id contains a hyphen is left untouched by the restorer even though a
definition for that id exists (first conjunct), contradicting "every inline
footnote reference is replaced".  For hyphen-free ids the restorer behaves
as specified: a backlink-bearing superscript when a definition exists, a
bare bracketed id otherwise, and the synthesized footnote list is appended
after all content exactly when at least one definition exists. -/
theorem C9_footnote_restoration :
    Mdvim.fnRestoreScan [("a-b", "Note")]
        "<p><!--FNREF_a-b--></p>".data.length "<p><!--FNREF_a-b--></p>".data
      = "<p><!--FNREF_a-b--></p>".data ∧
    Mdvim.fnRestoreScan [("ab", "Note")]
        "<p><!--FNREF_ab--></p>".data.length "<p><!--FNREF_ab--></p>".data
      = "<p>".data ++ Mdvim.backlinkSup "ab".data ++ "</p>".data ∧
    Mdvim.fnRestoreScan []
        "<p><!--FNREF_ab--></p>".data.length "<p><!--FNREF_ab--></p>".data
      = "<p>".data ++ Mdvim.bareSup "ab".data ++ "</p>".data ∧
    Mdvim.restoreFootnotes Mdvim.idRender "<p>x</p>" [("ab", "Note")]
      = String.mk ("<p>x</p>".data
          ++ Mdvim.footnotesSection Mdvim.idRender [("ab", "Note")]) ∧
    Mdvim.restoreFootnotes Mdvim.idRender "<p>x</p>" [] = "<p>x</p>" := by
  refine ⟨by decide, by decide, by decide, by decide, by decide⟩
